import Mathlib

/-!
Verification of the hash-based video frame deduplication tool
(src/video_dedup.py) against its natural-language specification.

The core of the program is the perceptual-hash similarity engine:
a 64-bit fingerprint per frame, compared by Hamming distance, and an
incremental single-pass near-duplicate detector.  Video decoding and
file I/O are external collaborators; here decoding is modelled as an
abstract list of per-frame hashing outcomes (`Option Fingerprint`:
`none` models a frame whose decode/hash raises an exception), and the
frame sink is modelled by the list of frame indices that would be
copied into the output directory.  Python exceptions that escape a
function are modelled with `Except String`.  The floating-point
reduction percentage is modelled exactly over `ℚ` (the claims under
study never depend on float rounding).
-/

namespace VideoDedup

/-- A perceptual hash: a 64-bit vector (imagehash's 8×8 phash),
compared only via Hamming distance. -/
abbrev Fingerprint := Fin 64 → Bool

/-- Hamming distance between two fingerprints; this is what
`hash_obj - processed_hash_obj` computes in `find_duplicates`
(imagehash `__sub__` counts differing bits). -/
def hdist (a b : Fingerprint) : Nat := hammingDist a b

/-- The per-frame duplicate test of `find_duplicates`
(src/video_dedup.py lines 112-120): scan the kept hashes and report a
duplicate as soon as one is within `similarity_threshold`.  The result
of the scan (a Boolean) does not depend on the scan order, so the kept
set is passed here as a list. -/
def isDup (t : Nat) (kept : List Fingerprint) (h : Fingerprint) : Bool :=
  kept.any fun k => decide (hdist h k ≤ t)

/-- The loop of `VideoDeduplicator.find_duplicates`
(src/video_dedup.py lines 108-124).  The `hashes` dict is iterated in
insertion order (frame order); `processed_hashes` (a Python set) is
modelled as the list of its elements in insertion order, which is
faithful because a set is determined by its elements and the inserted
hashes are pairwise distinct (an incoming hash equal to a kept one has
distance 0 ≤ threshold and is classified duplicate, never re-added).
Returns the `duplicates` list and the final kept hashes. -/
def find_dups_aux (t : Nat) :
    List (Nat × Fingerprint) → List Fingerprint → List Nat × List Fingerprint
  | [], kept => ([], kept)
  | (n, h) :: rest, kept =>
    if isDup t kept h then
      (n :: (find_dups_aux t rest kept).1, (find_dups_aux t rest kept).2)
    else
      find_dups_aux t rest (kept ++ [h])

/-- `VideoDeduplicator.find_duplicates`: the list of frame numbers
classified as duplicates, in frame order. -/
def find_duplicates (t : Nat) (hashes : List (Nat × Fingerprint)) : List Nat :=
  (find_dups_aux t hashes []).1

/-- The Kept-Set at the end of a `find_duplicates` run, in insertion
order. -/
def kept_set (t : Nat) (hashes : List (Nat × Fingerprint)) : List Fingerprint :=
  (find_dups_aux t hashes []).2

/-- `unique_frames = total_frames - len(duplicates)` specialised to the
Detector level (src/video_dedup.py line 168): the number of frames of a
fingerprint sequence classified unique. -/
def unique_count (t : Nat) (hashes : List (Nat × Fingerprint)) : Nat :=
  hashes.length - (find_duplicates t hashes).length

/-- The same loop, with the iteration order of the Python set
`processed_hashes` made explicit.  `σ` produces the order in which the
set's elements are scanned at each step (CPython string sets iterate in
an arbitrary, hash-randomised order, so any permutation of the kept
elements is an admissible run).  The kept elements are paired with the
frame that inserted them (the `hash_to_frame` dict), and each duplicate
is paired with the frame it is attributed to in the code's
`logger.debug` message (lines 112-120). -/
def detect_scan (t : Nat) (σ : List (Fingerprint × Nat) → List (Fingerprint × Nat)) :
    List (Nat × Fingerprint) → List (Fingerprint × Nat) →
      List (Nat × Nat) × List (Fingerprint × Nat)
  | [], kept => ([], kept)
  | (n, h) :: rest, kept =>
    match (σ kept).find? (fun kn => decide (hdist h kn.1 ≤ t)) with
    | some kn =>
      ((n, kn.2) :: (detect_scan t σ rest kept).1, (detect_scan t σ rest kept).2)
    | none => detect_scan t σ rest (kept ++ [(h, n)])

/-- The per-frame selection test of `extract_frames`
(src/video_dedup.py line 62):
`interval is None or frame_count % interval == 0`.
Python raises `ZeroDivisionError` when the modulus is 0. -/
def shouldExtract (interval : Option Int) (frameCount : Nat) : Except String Bool :=
  match interval with
  | none => Except.ok true
  | some i =>
    if i = 0 then Except.error "ZeroDivisionError: integer division or modulo by zero"
    else Except.ok (decide ((frameCount : Int) % i = 0))

/-- The frame-reading loop of `VideoDeduplicator.extract_frames`
(src/video_dedup.py lines 57-77): the video is the list of its decoded
frames (each an abstract image, modelled by its hashing outcome), and
the result pairs each selected frame with its frame count. -/
def extract_frames_aux (interval : Option Int) :
    Nat → List (Option Fingerprint) → Except String (List (Nat × Option Fingerprint))
  | _, [] => Except.ok []
  | fc, img :: rest =>
    match shouldExtract interval fc with
    | Except.error e => Except.error e
    | Except.ok b =>
      match extract_frames_aux interval (fc + 1) rest with
      | Except.error e => Except.error e
      | Except.ok frames =>
        Except.ok (if b then (fc, img) :: frames else frames)

/-- `VideoDeduplicator.extract_frames`. -/
def extract_frames (interval : Option Int) (video : List (Option Fingerprint)) :
    Except String (List (Nat × Option Fingerprint)) :=
  extract_frames_aux interval 0 video

/-- `VideoDeduplicator.generate_hashes` (src/video_dedup.py lines
79-98): hash each extracted frame; a frame whose hashing raises is
skipped with a warning, so it is absent from the resulting dict.  The
dict, iterated in insertion order, is the list of (frame number, hash)
pairs in frame order. -/
def generate_hashes (frames : List (Nat × Option Fingerprint)) :
    List (Nat × Fingerprint) :=
  frames.filterMap fun f => f.2.map fun h => (f.1, h)

/-- `VideoDeduplicator.save_unique_frames` (src/video_dedup.py lines
129-149): copy every extracted frame whose frame number is not in
`duplicates` into the output directory, then clean up the temp
directory via `frames[0]`, which raises `IndexError` when `frames` is
empty (nothing has been copied at that point).  Returns the saved frame
numbers in order. -/
def save_unique_frames (frames : List (Nat × Option Fingerprint))
    (duplicates : List Nat) : Except String (List Nat) :=
  match frames with
  | [] => Except.error "IndexError: list index out of range"
  | _ :: _ =>
    Except.ok ((frames.filter fun f => !(duplicates.contains f.1)).map fun f => f.1)

/-- The end-of-run summary statistics of `VideoDeduplicator.deduplicate`
(src/video_dedup.py lines 167-175), together with the frames persisted
by the sink. -/
structure RunStats where
  savedFrames : List Nat
  totalFrames : Nat
  duplicateFrames : Nat
  uniqueFrames : Nat
  reductionPercent : ℚ
  deriving Repr

/-- `VideoDeduplicator.deduplicate` (src/video_dedup.py lines 151-175):
extract, hash, detect, save, then report statistics.  Any exception
escaping a stage aborts the run (it is caught in `main`, which logs it
and exits with status 1). -/
def deduplicate (t : Nat) (interval : Option Int)
    (video : List (Option Fingerprint)) : Except String RunStats :=
  match extract_frames interval video with
  | Except.error e => Except.error e
  | Except.ok frames =>
    match save_unique_frames frames (find_duplicates t (generate_hashes frames)) with
    | Except.error e => Except.error e
    | Except.ok saved =>
      Except.ok
        ⟨saved, frames.length, (find_duplicates t (generate_hashes frames)).length,
         frames.length - (find_duplicates t (generate_hashes frames)).length,
         if frames.length > 0 then
           ((find_duplicates t (generate_hashes frames)).length : ℚ) / frames.length * 100
         else 0⟩

/-- The all-zero fingerprint. -/
def fpA : Fingerprint := fun _ => false

/-- Fingerprint with bits 0,1,2 set: `hdist fpA fpB = 3`. -/
def fpB : Fingerprint := fun i => decide (i.val < 3)

/-- Fingerprint with bits 0..5 set: `hdist fpB fpC = 3`,
`hdist fpA fpC = 6`. -/
def fpC : Fingerprint := fun i => decide (i.val < 6)

/-- Fingerprint with bit 0 set: within distance 2 of both `fpA` and
`fpB`. -/
def fpH : Fingerprint := fun i => decide (i.val = 0)

/-- Fingerprint with bits 1,2,3 set. -/
def fpQ : Fingerprint := fun i => decide (1 ≤ i.val ∧ i.val ≤ 3)

/-- Fingerprint with bits 1..5 set. -/
def fpR : Fingerprint := fun i => decide (1 ≤ i.val ∧ i.val ≤ 5)

/-- Fingerprint with bits 1,2,3,6,7 set. -/
def fpS : Fingerprint := fun i => decide ((1 ≤ i.val ∧ i.val ≤ 3) ∨ i.val = 6 ∨ i.val = 7)

/-- A four-frame fingerprint sequence whose unique count grows when the
threshold is raised from 2 to 3:
pairwise distances `hdist fpA fpQ = 3`, `hdist fpA fpR = 5`,
`hdist fpQ fpR = 2`, `hdist fpA fpS = 5`, `hdist fpQ fpS = 2`,
`hdist fpR fpS = 4`. -/
def c3seq : List (Nat × Fingerprint) := [(0, fpA), (1, fpQ), (2, fpR), (3, fpS)]

example : hdist fpA fpQ = 3 ∧ hdist fpA fpR = 5 ∧ hdist fpQ fpR = 2 ∧
    hdist fpA fpS = 5 ∧ hdist fpQ fpS = 2 ∧ hdist fpR fpS = 4 := by decide

example : unique_count 2 c3seq = 2 ∧ unique_count 3 c3seq = 3 := by decide

/-! ## Helper lemmas about the detector -/

theorem hdist_comm (a b : Fingerprint) : hdist a b = hdist b a :=
  hammingDist_comm a b

theorem hdist_self (a : Fingerprint) : hdist a a = 0 :=
  hammingDist_self a

/-- The kept list only ever grows by appending. -/
theorem find_dups_aux_growth (t : Nat) (hs : List (Nat × Fingerprint)) :
    ∀ kept : List Fingerprint, ∃ e, (find_dups_aux t hs kept).2 = kept ++ e := by
  induction hs with
  | nil => intro kept; exact ⟨[], by simp [find_dups_aux]⟩
  | cons p rest ih =>
    intro kept
    obtain ⟨n, h⟩ := p
    by_cases hd : isDup t kept h
    · obtain ⟨e, he⟩ := ih kept
      exact ⟨e, by simp [find_dups_aux, hd, he]⟩
    · obtain ⟨e, he⟩ := ih (kept ++ [h])
      refine ⟨h :: e, ?_⟩
      simp [find_dups_aux, hd, he]

/-- Every member of the final kept list is either initial or the
fingerprint of some input frame. -/
theorem find_dups_aux_mem_src (t : Nat) (hs : List (Nat × Fingerprint)) :
    ∀ kept x, x ∈ (find_dups_aux t hs kept).2 → x ∈ kept ∨ ∃ n, (n, x) ∈ hs := by
  induction hs with
  | nil => intro kept x hx; exact Or.inl (by simpa [find_dups_aux] using hx)
  | cons p rest ih =>
    intro kept x hx
    obtain ⟨n, h⟩ := p
    by_cases hd : isDup t kept h
    · rcases ih kept x (by simpa [find_dups_aux, hd] using hx) with hk | ⟨m, hm⟩
      · exact Or.inl hk
      · exact Or.inr ⟨m, List.mem_cons_of_mem _ hm⟩
    · rcases ih (kept ++ [h]) x (by simpa [find_dups_aux, hd] using hx) with hk | ⟨m, hm⟩
      · rcases List.mem_append.mp hk with hk | hk
        · exact Or.inl hk
        · exact Or.inr ⟨n, by simp [List.mem_singleton.mp hk]⟩
      · exact Or.inr ⟨m, List.mem_cons_of_mem _ hm⟩

/-- Every input frame ends up within threshold of some member of the
final kept list. -/
theorem find_dups_aux_cover (t : Nat) (hs : List (Nat × Fingerprint)) :
    ∀ kept n h, (n, h) ∈ hs → ∃ k ∈ (find_dups_aux t hs kept).2, hdist h k ≤ t := by
  induction hs with
  | nil => intro kept n h hm; cases hm
  | cons p rest ih =>
    intro kept n h hm
    obtain ⟨m, g⟩ := p
    by_cases hd : isDup t kept g
    · rcases List.mem_cons.mp hm with heq | htl
      · obtain ⟨k, hk, hdk⟩ := List.any_eq_true.mp hd
        obtain ⟨e, he⟩ := find_dups_aux_growth t rest kept
        have hg : h = g := (Prod.mk.injEq _ _ _ _ ▸ heq).2
        refine ⟨k, ?_, ?_⟩
        · simp [find_dups_aux, hd, he, hk]
        · subst hg; exact of_decide_eq_true hdk
      · obtain ⟨k, hk, hdk⟩ := ih kept n h htl
        exact ⟨k, by simp [find_dups_aux, hd, hk], hdk⟩
    · rcases List.mem_cons.mp hm with heq | htl
      · obtain ⟨e, he⟩ := find_dups_aux_growth t rest (kept ++ [g])
        have hg : h = g := (Prod.mk.injEq _ _ _ _ ▸ heq).2
        refine ⟨g, ?_, by simp [hg, hdist_self]⟩
        simp [find_dups_aux, hd, he]
      · obtain ⟨k, hk, hdk⟩ := ih (kept ++ [g]) n h htl
        exact ⟨k, by simp [find_dups_aux, hd, hk], hdk⟩

/-- The kept list stays pairwise separated by more than the
threshold. -/
theorem find_dups_aux_sep (t : Nat) (hs : List (Nat × Fingerprint)) :
    ∀ kept, kept.Pairwise (fun a b => t < hdist a b) →
      (find_dups_aux t hs kept).2.Pairwise (fun a b => t < hdist a b) := by
  induction hs with
  | nil => intro kept hk; simpa [find_dups_aux] using hk
  | cons p rest ih =>
    intro kept hk
    obtain ⟨n, h⟩ := p
    by_cases hd : isDup t kept h
    · simpa [find_dups_aux, hd] using ih kept hk
    · have hfar : ∀ k ∈ kept, t < hdist k h := by
        intro k hkm
        have := List.any_eq_false.mp (Bool.not_eq_true _ ▸ hd) k hkm
        have h2 : ¬ hdist h k ≤ t := by simpa using this
        rw [hdist_comm]
        omega
      have hk2 : (kept ++ [h]).Pairwise (fun a b => t < hdist a b) := by
        refine List.pairwise_append.mpr ⟨hk, List.pairwise_singleton _ _, ?_⟩
        intro a ha b hb
        rw [List.mem_singleton.mp hb]
        exact hfar a ha
      simpa [find_dups_aux, hd] using ih (kept ++ [h]) hk2

/-- Every frame is classified exactly once: duplicates plus kept
fingerprints account for all frames. -/
theorem find_dups_aux_count (t : Nat) (hs : List (Nat × Fingerprint)) :
    ∀ kept, (find_dups_aux t hs kept).1.length + (find_dups_aux t hs kept).2.length
      = hs.length + kept.length := by
  induction hs with
  | nil => intro kept; simp [find_dups_aux]
  | cons p rest ih =>
    intro kept
    obtain ⟨n, h⟩ := p
    by_cases hd : isDup t kept h
    · have := ih kept
      simp only [find_dups_aux, hd, if_true, List.length_cons]
      omega
    · have := ih (kept ++ [h])
      simp only [List.length_append, List.length_singleton] at this
      simp only [List.length_cons]
      simp [find_dups_aux, hd]
      omega

/-- The unique count of a run is the size of its final Kept-Set. -/
theorem unique_count_eq_kept_length (t : Nat) (hs : List (Nat × Fingerprint)) :
    unique_count t hs = (kept_set t hs).length := by
  have := find_dups_aux_count t hs []
  simp only [List.length_nil, Nat.add_zero] at this
  simp only [unique_count, kept_set, find_duplicates]
  omega

/-- Raising the threshold to at least double shrinks (or preserves) the
Kept-Set: the threshold-t run covers every input within distance t, and
the threshold-t' kept members are pairwise more than t' apart, so
mapping each to a cover point is injective when 2t ≤ t'. -/
theorem kept_length_le (t t' : Nat) (hs : List (Nat × Fingerprint)) (h2 : 2 * t ≤ t') :
    (kept_set t' hs).length ≤ (kept_set t hs).length := by
  have sep : (kept_set t' hs).Pairwise (fun a b => t' < hdist a b) :=
    find_dups_aux_sep t' hs [] List.Pairwise.nil
  have nd : (kept_set t' hs).Nodup := by
    refine sep.imp ?_
    intro a b hab heq
    rw [heq, hdist_self] at hab
    omega
  have cover : ∀ p ∈ kept_set t' hs, ∃ c ∈ kept_set t hs, hdist p c ≤ t := by
    intro p hp
    rcases find_dups_aux_mem_src t' hs [] p hp with h0 | ⟨n, hn⟩
    · cases h0
    · exact find_dups_aux_cover t hs [] n p hn
  have hex : ∀ p : Fingerprint, ∃ c : Fingerprint,
      p ∈ (kept_set t' hs).toFinset → c ∈ (kept_set t hs).toFinset ∧ hdist p c ≤ t := by
    intro p
    by_cases hp : p ∈ kept_set t' hs
    · obtain ⟨c, hc, hdc⟩ := cover p hp
      exact ⟨c, fun _ => ⟨List.mem_toFinset.mpr hc, hdc⟩⟩
    · exact ⟨p, fun hmem => absurd (List.mem_toFinset.mp hmem) hp⟩
  choose f hf using hex
  have hmaps : ∀ p ∈ (kept_set t' hs).toFinset, f p ∈ (kept_set t hs).toFinset :=
    fun p hp => (hf p hp).1
  have hinj : Set.InjOn f ((kept_set t' hs).toFinset : Set Fingerprint) := by
    intro p hp q hq hfeq
    by_contra hne
    have hp2 : p ∈ (kept_set t' hs).toFinset := hp
    have hq2 : q ∈ (kept_set t' hs).toFinset := hq
    have hsym : Symmetric (fun a b : Fingerprint => t' < hdist a b) := by
      intro a b hab
      rwa [hdist_comm]
    have hfar : t' < hdist p q :=
      sep.forall hsym (List.mem_toFinset.mp hp2) (List.mem_toFinset.mp hq2) hne
    have htri : hdist p q ≤ hdist p (f p) + hdist (f p) q := hammingDist_triangle p (f p) q
    have hpc : hdist p (f p) ≤ t := (hf p hp2).2
    have hqc : hdist (f p) q ≤ t := by
      rw [hdist_comm, hfeq]
      exact (hf q hq2).2
    omega
  have hcard := Finset.card_le_card_of_injOn f hmaps hinj
  have hc1 : (kept_set t' hs).toFinset.card = (kept_set t' hs).length :=
    List.toFinset_card_of_nodup nd
  have hc2 : (kept_set t hs).toFinset.card ≤ (kept_set t hs).length :=
    List.toFinset_card_le (kept_set t hs)
  omega

/-! ## Claim theorems -/

/-- C3, counterexample: on the four-frame sequence `c3seq`, raising the
similarity threshold from 2 to 3 RAISES the number of frames classified
unique from 2 to 3, so the unique count is not non-increasing in the
threshold.  (At threshold 2 the second frame is kept and absorbs the
last two frames; at threshold 3 the second frame is itself absorbed by
the first, and the last two frames are then far from every kept
frame.) -/
theorem c3_counterexample :
    unique_count 2 c3seq = 2 ∧ unique_count 3 c3seq = 3 := by decide

/-- C3, amended: the count of frames classified unique is non-increasing
when the threshold at least doubles: if 2·t ≤ t' then the unique count
at threshold t' is at most the unique count at threshold t (in
particular every threshold's count is at most the threshold-0 count).
For arbitrary threshold increases the count may grow, as
the counterexample shows. -/
theorem c3_threshold_doubling (t t' : Nat) (hs : List (Nat × Fingerprint))
    (h2 : 2 * t ≤ t') : unique_count t' hs ≤ unique_count t hs := by
  rw [unique_count_eq_kept_length, unique_count_eq_kept_length]
  exact kept_length_le t t' hs h2

/-- Witness for the amended C3 at threshold pair (1, 2) on `c3seq`. -/
theorem c3_threshold_doubling_witness :
    2 * 1 ≤ 2 ∧ unique_count 2 c3seq ≤ unique_count 1 c3seq :=
  ⟨by decide, c3_threshold_doubling 1 2 c3seq (by decide)⟩

/-- C6, counterexample: the scenario's distances are impossible — no
three 64-bit fingerprints have pairwise Hamming distances 3, 3 and 10,
because Hamming distance obeys the triangle inequality
(10 > 3 + 3), so the claimed scenario describes no run at all. -/
theorem c6_counterexample :
    ¬ ∃ A B C : Fingerprint, hdist A B = 3 ∧ hdist B C = 3 ∧ hdist A C = 10 := by
  rintro ⟨A, B, C, h1, h2, h3⟩
  have htri : hdist A C ≤ hdist A B + hdist B C := hammingDist_triangle A B C
  omega

/-- C6, amended: for a three-frame sequence [A, B, C] with
distance(A,B) = 3, distance(B,C) = 3 and distance(A,C) = 6 (the largest
value the triangle inequality allows, still above the threshold) and
threshold 5, the Detector classifies A as unique, B as a duplicate and
C as unique, because only A is in the Kept-Set when C is compared. -/
theorem c6_nontransitivity (A B C : Fingerprint)
    (hAB : hdist A B = 3) (_hBC : hdist B C = 3) (hAC : hdist A C = 6) :
    find_dups_aux 5 [(0, A), (1, B), (2, C)] [] = ([1], [A, C]) := by
  have e1 : hdist B A = 3 := by rw [hdist_comm]; exact hAB
  have e2 : hdist C A = 6 := by rw [hdist_comm]; exact hAC
  simp [find_dups_aux, isDup, e1, e2]

/-- Witness for the amended C6 on concrete fingerprints with the stated
distances. -/
theorem c6_nontransitivity_witness :
    hdist fpA fpB = 3 ∧ hdist fpB fpC = 3 ∧ hdist fpA fpC = 6 ∧
      find_dups_aux 5 [(0, fpA), (1, fpB), (2, fpC)] [] = ([1], [fpA, fpC]) :=
  ⟨by decide, by decide, by decide,
    c6_nontransitivity fpA fpB fpC (by decide) (by decide) (by decide)⟩

/-- C8: with threshold 0, the per-frame classifier of `find_duplicates`
reports a duplicate exactly when the incoming fingerprint is
bit-identical to a fingerprint already in the Kept-Set, because a
Hamming distance is at most 0 exactly when it is 0, i.e. when the two
bit vectors are equal. -/
theorem c8_threshold_zero (kept : List Fingerprint) (h : Fingerprint) :
    isDup 0 kept h = true ↔ h ∈ kept := by
  simp only [isDup, List.any_eq_true, decide_eq_true_eq, Nat.le_zero]
  constructor
  · rintro ⟨k, hk, hd0⟩
    have : h = k := hammingDist_eq_zero.mp hd0
    rwa [this]
  · intro hm
    exact ⟨h, hm, hdist_self h⟩

/-- C9: during a single pass the Kept-Set only grows — processing any
frames appends to the kept list, never removes from it — and processing
a later batch of frames neither re-evaluates nor reclassifies an
earlier batch: the run on `xs ++ ys` is the run on `xs` followed by the
run on `ys` started from the Kept-Set that `xs` produced, with the
earlier duplicates list left intact. -/
theorem c9_kept_monotone (t : Nat) (xs ys : List (Nat × Fingerprint))
    (kept : List Fingerprint) :
    (∃ e, (find_dups_aux t xs kept).2 = kept ++ e) ∧
      find_dups_aux t (xs ++ ys) kept =
        ((find_dups_aux t xs kept).1 ++ (find_dups_aux t ys ((find_dups_aux t xs kept).2)).1,
          (find_dups_aux t ys ((find_dups_aux t xs kept).2)).2) := by
  constructor
  · exact find_dups_aux_growth t xs kept
  · induction xs generalizing kept with
    | nil => simp [find_dups_aux]
    | cons p rest ih =>
      obtain ⟨n, h⟩ := p
      by_cases hd : isDup t kept h
      · simp [find_dups_aux, hd, ih kept]
      · simp [find_dups_aux, hd, ih (kept ++ [h])]

/-- Bridge between the scan-order-explicit detector and the canonical
one: for every admissible scan order (any per-step permutation of the
kept elements), the frames classified duplicate and the kept
fingerprints are those of `find_dups_aux`. -/
theorem detect_scan_classification (t : Nat)
    (σ : List (Fingerprint × Nat) → List (Fingerprint × Nat))
    (hσ : ∀ l, (σ l).Perm l) :
    ∀ (hs : List (Nat × Fingerprint)) (kept : List (Fingerprint × Nat)),
      (detect_scan t σ hs kept).1.map Prod.fst
          = (find_dups_aux t hs (kept.map Prod.fst)).1 ∧
        (detect_scan t σ hs kept).2.map Prod.fst
          = (find_dups_aux t hs (kept.map Prod.fst)).2 := by
  intro hs
  induction hs with
  | nil =>
    intro kept
    exact ⟨rfl, rfl⟩
  | cons p rest ih =>
    intro kept
    obtain ⟨n, h⟩ := p
    rcases hfind : (σ kept).find? (fun kn => decide (hdist h kn.1 ≤ t)) with _ | kn
    · have hdup : isDup t (kept.map Prod.fst) h = false := by
        refine List.any_eq_false.mpr ?_
        intro k hk
        obtain ⟨kn, hkn, hkfst⟩ := List.mem_map.mp hk
        have hnone := List.find?_eq_none.mp hfind kn ((hσ kept).mem_iff.mpr hkn)
        simp only [decide_eq_true_eq] at hnone ⊢
        rw [← hkfst]
        exact hnone
      have hrec := ih (kept ++ [(h, n)])
      simp only [List.map_append, List.map_cons, List.map_nil] at hrec
      constructor
      · simpa [detect_scan, hfind, find_dups_aux, hdup] using hrec.1
      · simpa [detect_scan, hfind, find_dups_aux, hdup] using hrec.2
    · have hp0 := List.find?_some hfind
      have hmem : kn ∈ kept := (hσ kept).mem_iff.mp (List.mem_of_find?_eq_some hfind)
      have hdup : isDup t (kept.map Prod.fst) h = true := by
        refine List.any_eq_true.mpr ⟨kn.1, List.mem_map.mpr ⟨kn, hmem, rfl⟩, ?_⟩
        simpa using hp0
      have hrec := ih kept
      exact ⟨by simp [detect_scan, hfind, find_dups_aux, hdup, hrec.1],
        by simp [detect_scan, hfind, find_dups_aux, hdup, hrec.2]⟩

/-- C5: the Detector's duplicate/unique classification is deterministic:
the only run-to-run variation in `find_duplicates` is the iteration
order of the Python set `processed_hashes` (hash-randomised), and for
any two admissible scan orders the list of frames classified duplicate
and the kept fingerprints are identical. -/
theorem c5_deterministic (t : Nat) (hs : List (Nat × Fingerprint))
    (σ₁ σ₂ : List (Fingerprint × Nat) → List (Fingerprint × Nat))
    (h₁ : ∀ l, (σ₁ l).Perm l) (h₂ : ∀ l, (σ₂ l).Perm l) :
    (detect_scan t σ₁ hs []).1.map Prod.fst = (detect_scan t σ₂ hs []).1.map Prod.fst ∧
      (detect_scan t σ₁ hs []).2.map Prod.fst = (detect_scan t σ₂ hs []).2.map Prod.fst := by
  have a1 := detect_scan_classification t σ₁ h₁ hs []
  have a2 := detect_scan_classification t σ₂ h₂ hs []
  simp only [List.map_nil] at a1 a2
  exact ⟨a1.1.trans a2.1.symm, a1.2.trans a2.2.symm⟩

/-- Witness for C5: the identity and the reversed scan order classify a
concrete three-frame sequence identically. -/
theorem c5_deterministic_witness :
    (detect_scan 3 id [(0, fpA), (1, fpB), (2, fpC)] []).1.map Prod.fst
        = (detect_scan 3 List.reverse [(0, fpA), (1, fpB), (2, fpC)] []).1.map Prod.fst ∧
      (detect_scan 3 id [(0, fpA), (1, fpB), (2, fpC)] []).2.map Prod.fst
        = (detect_scan 3 List.reverse [(0, fpA), (1, fpB), (2, fpC)] []).2.map Prod.fst :=
  c5_deterministic 3 [(0, fpA), (1, fpB), (2, fpC)] id List.reverse
    (fun l => List.Perm.refl l) (fun l => List.reverse_perm l)

/-- C4, counterexample: the code scans the kept hashes in the iteration
order of a Python `set`, which is arbitrary (hash-randomised for
strings), not insertion order.  With threshold 2, Kept-Set [fpA, fpB]
(inserted in that order, frames 0 and 1) and incoming fpH within
distance 2 of both, a run whose set iterates in reversed order
attributes the duplicate to frame 1, not to frame 0 — the first
insertion-order match — so the frame is not always classified as a
duplicate of the FIRST Kept-Set member in insertion order.
(`List.reverse_perm` certifies the reversed order as a permutation of
the same set elements.) -/
theorem c4_counterexample :
    (detect_scan 2 id [(0, fpA), (1, fpB), (2, fpH)] []).1 = [(2, 0)] ∧
      (detect_scan 2 List.reverse [(0, fpA), (1, fpB), (2, fpH)] []).1 = [(2, 1)] ∧
      ((2, 1) : Nat × Nat) ≠ (2, 0) :=
  ⟨by decide, by decide, by decide⟩

/-- C4, amended: an incoming fingerprint whose minimum Hamming distance
to the Kept-Set is at most the threshold is classified as a duplicate of
SOME Kept-Set member within the threshold — which member depends on the
unordered set's iteration order and is not necessarily the first in
insertion order — and its fingerprint is not inserted into the Kept-Set
(the detector continues on the unchanged Kept-Set). -/
theorem c4_duplicate_not_inserted (t : Nat)
    (σ : List (Fingerprint × Nat) → List (Fingerprint × Nat)) (n : Nat)
    (h : Fingerprint) (rest : List (Nat × Fingerprint))
    (kept : List (Fingerprint × Nat)) (hσ : (σ kept).Perm kept)
    (hex : ∃ k ∈ kept, hdist h k.1 ≤ t) :
    ∃ kn ∈ kept, hdist h kn.1 ≤ t ∧
      detect_scan t σ ((n, h) :: rest) kept =
        ((n, kn.2) :: (detect_scan t σ rest kept).1, (detect_scan t σ rest kept).2) := by
  rcases hfind : (σ kept).find? (fun kn => decide (hdist h kn.1 ≤ t)) with _ | kn
  · exfalso
    obtain ⟨k, hk, hdk⟩ := hex
    have hnone := List.find?_eq_none.mp hfind k (hσ.mem_iff.mpr hk)
    simp only [decide_eq_true_eq] at hnone
    exact hnone hdk
  · have hp0 := List.find?_some hfind
    refine ⟨kn, hσ.mem_iff.mp (List.mem_of_find?_eq_some hfind), ?_, ?_⟩
    · simpa using hp0
    · simp [detect_scan, hfind]

/-- Witness for the amended C4: with Kept-Set [(fpA, 0)] and incoming
fpH at distance 1, frame 5 is classified a duplicate attributed to a
member within threshold, and the Kept-Set is left unchanged. -/
theorem c4_duplicate_not_inserted_witness :
    ∃ kn ∈ [(fpA, 0)], hdist fpH kn.1 ≤ 2 ∧
      detect_scan 2 id [(5, fpH)] [(fpA, 0)] =
        ((5, kn.2) :: (detect_scan 2 id [] [(fpA, 0)]).1,
          (detect_scan 2 id [] [(fpA, 0)]).2) :=
  c4_duplicate_not_inserted 2 id 5 fpH [] [(fpA, 0)] (List.Perm.refl _)
    ⟨(fpA, 0), List.mem_singleton.mpr rfl, by decide⟩

/-- Once the Kept-Set is the singleton of the first frame and the
threshold is 64, every later frame matches it, under any scan order. -/
theorem detect_scan_after_first
    (σ : List (Fingerprint × Nat) → List (Fingerprint × Nat))
    (hσ : ∀ l, (σ l).Perm l) (h : Fingerprint) (n : Nat) :
    ∀ rest : List (Nat × Fingerprint),
      detect_scan 64 σ rest [(h, n)] = (rest.map fun p => (p.1, n), [(h, n)]) := by
  intro rest
  induction rest with
  | nil => rfl
  | cons q qs ih =>
    obtain ⟨m, g⟩ := q
    have hsingle : σ [(h, n)] = [(h, n)] := List.perm_singleton.mp (hσ [(h, n)])
    have hle : hdist g h ≤ 64 := by
      have h1 : hammingDist g h ≤ Fintype.card (Fin 64) := hammingDist_le_card_fintype
      rw [Fintype.card_fin] at h1
      exact h1
    have hfind : ([(h, n)] : List (Fingerprint × Nat)).find?
        (fun kn => decide (hdist g kn.1 ≤ 64)) = some (h, n) := by
      simp [List.find?, decide_eq_true hle]
    simp [detect_scan, hsingle, hfind, ih]

/-- C7: with threshold 64 every 64-bit Hamming distance is within the
threshold, so on any non-empty input the first frame is classified
unique (kept) and every subsequent frame is classified a duplicate
attributed to the first kept frame, under every admissible scan
order. -/
theorem c7_threshold_max
    (σ : List (Fingerprint × Nat) → List (Fingerprint × Nat))
    (hσ : ∀ l, (σ l).Perm l) (n : Nat) (h : Fingerprint)
    (rest : List (Nat × Fingerprint)) :
    detect_scan 64 σ ((n, h) :: rest) [] = (rest.map fun p => (p.1, n), [(h, n)]) := by
  have h0 : σ ([] : List (Fingerprint × Nat)) = [] := List.perm_nil.mp (hσ [])
  simp [detect_scan, h0, detect_scan_after_first σ hσ h n rest]

/-- Witness for C7 on a concrete three-frame input. -/
theorem c7_threshold_max_witness :
    detect_scan 64 id [(0, fpA), (1, fpB), (2, fpC)] [] =
      ([(1, fpB), (2, fpC)].map (fun p => (p.1, 0)), [(fpA, 0)]) :=
  c7_threshold_max id (fun l => List.Perm.refl l) 0 fpA [(1, fpB), (2, fpC)]

/-- C1, code evaluation at the failing input: a two-frame run where
frame 0 hashes to fpA and frame 1's hashing raises.  The failed frame
is excluded from the hash dict and never classified a duplicate, and
the run continues — but `save_unique_frames` iterates over ALL
extracted frames and copies every frame not in `duplicates`, so frame 1
IS persisted to the output directory (and counted as unique in the
summary), contradicting the claim that a hash-failed frame is excluded
from the output entirely. -/
theorem c1_failed_frame_persisted :
    extract_frames none [some fpA, none] = Except.ok [(0, some fpA), (1, none)] ∧
      generate_hashes [(0, some fpA), (1, none)] = [(0, fpA)] ∧
      find_duplicates 5 [(0, fpA)] = [] ∧
      save_unique_frames [(0, some fpA), (1, none)] (find_duplicates 5 [(0, fpA)]) =
        Except.ok [0, 1] :=
  ⟨rfl, rfl, rfl, rfl⟩

/-- C2, code evaluation at the failing input: on a video with zero
decodable frames the run does NOT complete — `save_unique_frames`
evaluates `frames[0]` for temp-dir cleanup, which raises `IndexError`
on the empty frame list before the statistics are reported, and `main`
exits with status 1. -/
theorem c2_empty_video_errors (t : Nat) (interval : Option Int) :
    deduplicate t interval [] = Except.error "IndexError: list index out of range" :=
  rfl

/-- With no interval configured, every decoded frame is selected. -/
theorem extract_frames_aux_none (video : List (Option Fingerprint)) :
    ∀ fc, extract_frames_aux none fc video = Except.ok (video.enumFrom fc) := by
  induction video with
  | nil => intro fc; rfl
  | cons img rest ih =>
    intro fc
    simp [extract_frames_aux, shouldExtract, ih (fc + 1), List.enumFrom]

/-- C10, counterexample: `extract_frames` with interval 0 does NOT
select every frame the way interval None does: on a one-frame video the
None run returns the frame, while the interval-0 run raises
`ZeroDivisionError`, because the truthiness test (`if interval:`) only
chooses the log message — the per-frame test is
`interval is None or frame_count % interval == 0`, and 0 is not None,
so `frame_count % 0` is evaluated. -/
theorem c10_counterexample :
    extract_frames (some 0) [some fpA] =
        Except.error "ZeroDivisionError: integer division or modulo by zero" ∧
      extract_frames none [some fpA] = Except.ok [(0, some fpA)] ∧
      Except.error "ZeroDivisionError: integer division or modulo by zero" ≠
        (Except.ok [(0, some fpA)] :
          Except String (List (Nat × Option Fingerprint))) :=
  ⟨rfl, rfl, fun hcontra => nomatch hcontra⟩

/-- C10, amended: no validation rejects a non-positive interval (`main`
range-checks only the threshold), but interval = 0 is not equivalent to
interval = None: on any video with at least one decodable frame it
raises `ZeroDivisionError` at the first frame's modulo test, while
interval = None selects every frame. -/
theorem c10_zero_interval_crashes (img : Option Fingerprint)
    (rest : List (Option Fingerprint)) :
    extract_frames (some 0) (img :: rest) =
        Except.error "ZeroDivisionError: integer division or modulo by zero" ∧
      extract_frames none (img :: rest) = Except.ok ((img :: rest).enum) := by
  refine ⟨rfl, ?_⟩
  have hall := extract_frames_aux_none (img :: rest) 0
  simpa [extract_frames, List.enum] using hall

end VideoDedup
